import Mathlib

set_option maxRecDepth 8000

/-!
Verification of the cumulative-deposit chart engine of the fakebooks invoice
demo (app/utils/chart.server.ts and the invoice route variants embedded in the
repository README).

Shallow embedding conventions:
* A JavaScript Date object is modelled by JSDate: ref is the object identity
  (reference equality, which is what a Map keyed by Date objects compares),
  time is the getTime()/valueOf() timestamp, day is getDate(), the day of
  the month.
* JS numbers are modelled by exact rationals; the hand-rolled scale variant,
  whose degenerate-domain behaviour hinges on IEEE special values, is modelled
  over JSNum, rationals extended with Infinity and NaN.
* new Map() is an insertion-ordered association list; Map.set updates the
  value of the first (unique) matching key in place and otherwise appends.
* Array.prototype.sort with a consistent comparator is the stable sort by
  that comparator (ES2019 guarantees stability).
* Intl.NumberFormat / Intl.DateTimeFormat label strings are idealized as an
  injective encoding (Label) of the formatted value.
-/

/-- A JavaScript Date object: ref is the object identity, time is the
getTime()/valueOf() timestamp (up to a fixed affine rescaling of the
millisecond unit, see the note above the concrete dates), day is
getDate() (day of the month). -/
structure JSDate where
  ref : Nat
  time : Int
  day : Nat
deriving DecidableEq, Repr

/-- One deposit record as passed to the chart code:
Pick of Deposit with id, amount and depositDate. -/
structure DepositRec where
  id : String
  amount : ℚ
  depositDate : JSDate
deriving DecidableEq, Repr

/-- A point of the cumulative series: x is the deposit date, y the running total. -/
structure CPoint where
  x : JSDate
  y : ℚ
deriving DecidableEq, Repr

/-- The amountPerDate map of calculateCumulativeDeposits: a JS Map from Date
objects to numbers, i.e. an insertion-ordered association list whose key
equality is Date object identity. -/
abbrev DateMap := List (JSDate × ℚ)

/-- Map.prototype.get: the value at the first matching key, none when absent. -/
def mapGet : DateMap → JSDate → Option ℚ
  | [], _ => none
  | (k₁, v₁) :: rest, k => if k₁ = k then some v₁ else mapGet rest k

/-- Map.prototype.set: replace the value at an existing key in place,
otherwise append the new entry at the end (insertion order). -/
def mapSet : DateMap → JSDate → ℚ → DateMap
  | [], k, v => [(k, v)]
  | (k₁, v₁) :: rest, k, v =>
    if k₁ = k then (k₁, v) :: rest else (k₁, v₁) :: mapSet rest k v

/-- Body of the for-of loop of calculateCumulativeDeposits:
amountPerDate.set(depositDate, (amountPerDate.get(depositDate) ?? 0) + amount). -/
def addDeposit (m : DateMap) (d : DepositRec) : DateMap :=
  mapSet m d.depositDate ((mapGet m d.depositDate).getD 0 + d.amount)

/-- The amountPerDate accumulation loop over the whole deposit list. -/
def amountPerDate (deposits : List DepositRec) : DateMap :=
  deposits.foldl addDeposit []

/-- Stable insertion of a date into a list already stably sorted by
getDate(): the element being inserted comes from earlier in the original
key order, so it goes before keys with the same day of the month. -/
def insertByDay (x : JSDate) : List JSDate → List JSDate
  | [] => [x]
  | y :: ys => if x.day ≤ y.day then x :: y :: ys else y :: insertByDay x ys

/-- [...amountPerDate.keys()].sort((d1, d2) => d1.getDate() - d2.getDate()):
the stable sort of the keys by day of the month (note: getDate, not getTime). -/
def sortByDay : List JSDate → List JSDate
  | [] => []
  | x :: xs => insertByDay x (sortByDay xs)

/-- The final dates.map of calculateCumulativeDeposits: running sum of the
per-key amounts along the sorted key list. -/
def runningSum (m : DateMap) : ℚ → List JSDate → List CPoint
  | _, [] => []
  | acc, d :: ds =>
    let y := acc + (mapGet m d).getD 0
    ⟨d, y⟩ :: runningSum m y ds

/-- calculateCumulativeDeposits from app/utils/chart.server.ts. -/
def calculateCumulativeDeposits (deposits : List DepositRec) : List CPoint :=
  let m := amountPerDate deposits
  runningSum m 0 (sortByDay (m.map Prod.fst))

/-- Sum of the amounts of the deposits carrying a given calendar date
(getTime value); the grouping the specification describes. -/
def amountsOnDate (deposits : List DepositRec) (t : Int) : ℚ :=
  ((deposits.filter (fun d => d.depositDate.time == t)).map (fun d => d.amount)).sum

/-! Concrete 2024 dates. The time field is the timestamp counted in days
since 2024-01-01 rather than epoch milliseconds: the code consumes
timestamps only through equality, order, differences and ratios of
differences, all invariant under this affine rescaling, and the small
numerals keep kernel evaluation feasible. Two distinct Date objects
(jan1a, jan1b and mar1a, mar1b) carry the same calendar date. -/

def jan1a : JSDate := ⟨0, 0, 1⟩

def jan1b : JSDate := ⟨1, 0, 1⟩

def jan5 : JSDate := ⟨2, 4, 5⟩

def jan10 : JSDate := ⟨3, 9, 10⟩

def jan20 : JSDate := ⟨4, 19, 20⟩

def feb5 : JSDate := ⟨5, 35, 5⟩

def mar1a : JSDate := ⟨6, 60, 1⟩

def mar1b : JSDate := ⟨7, 60, 1⟩

/-- C1: the claim fails on the code. The Map inside calculateCumulativeDeposits
is keyed by Date object identity, so the two deposits sharing calendar date
2024-01-01 (distinct Date objects jan1a, jan1b) are never summed into one
point: the example input yields three CumulativePoints, not the claimed two. -/
theorem aggregator_object_keys_no_date_grouping :
    calculateCumulativeDeposits
        [⟨"d1", 100, jan1a⟩, ⟨"d2", 50, jan1b⟩, ⟨"d3", 25, jan10⟩] =
      [⟨jan1a, 100⟩, ⟨jan1b, 150⟩, ⟨jan10, 175⟩] ∧
    jan1a.time = jan1b.time ∧
    (calculateCumulativeDeposits
        [⟨"d1", 100, jan1a⟩, ⟨"d2", 50, jan1b⟩, ⟨"d3", 25, jan10⟩]).length ≠ 2 := by
  refine ⟨by with_unfolding_all decide, by with_unfolding_all decide, by with_unfolding_all decide⟩

/-- C3: the claim fails on the code. The sort comparator is
d1.getDate() - d2.getDate(), the day of the month, so a deposit dated
2024-02-05 (day 5) is placed before one dated 2024-01-10 (day 10): the
output is not ascending by calendar date. -/
theorem aggregator_sorts_by_day_of_month :
    (calculateCumulativeDeposits [⟨"d1", 100, jan10⟩, ⟨"d2", 50, feb5⟩]).map
        (fun p => p.x) = [feb5, jan10] ∧
    jan10.time < feb5.time := by
  refine ⟨by with_unfolding_all decide, by with_unfolding_all decide⟩

/-- C4: the claim fails on the code. The two lists are permutations of the
same two deposit records, but both dates have day of the month 5, the
comparator ties, and the stable sort keeps insertion order, so the two
orders produce different CumulativePoint sequences. -/
theorem aggregator_not_permutation_invariant :
    ([⟨"d2", 50, feb5⟩, ⟨"d1", 100, jan5⟩] : List DepositRec).Perm
        [⟨"d1", 100, jan5⟩, ⟨"d2", 50, feb5⟩] ∧
    calculateCumulativeDeposits [⟨"d1", 100, jan5⟩, ⟨"d2", 50, feb5⟩] ≠
      calculateCumulativeDeposits [⟨"d2", 50, feb5⟩, ⟨"d1", 100, jan5⟩] := by
  refine ⟨List.Perm.swap _ _ _, by with_unfolding_all decide⟩

/-- C6: the difference part of the claim fails on the code. With two positive
deposits both dated 2024-01-01 but held in distinct Date objects, the
adjacent cumulative difference is 50 (the single record keyed by the second
object), while the amounts dated points[1].x sum to 150. -/
theorem aggregator_delta_not_date_sum :
    calculateCumulativeDeposits [⟨"d1", 100, jan1a⟩, ⟨"d2", 50, jan1b⟩] =
      [⟨jan1a, 100⟩, ⟨jan1b, 150⟩] ∧
    (0 : ℚ) < 100 ∧ (0 : ℚ) < 50 ∧
    (150 : ℚ) - 100 ≠
      amountsOnDate [⟨"d1", 100, jan1a⟩, ⟨"d2", 50, jan1b⟩] jan1b.time := by
  refine ⟨by with_unfolding_all decide, by norm_num, by norm_num, by with_unfolding_all decide⟩

/-! Lemmas about the amountPerDate map, the stable sort, and the running
sum, leading to the total invariant (C5). -/

theorem mapSet_ne_nil (m : DateMap) (k : JSDate) (v : ℚ) : mapSet m k v ≠ [] := by
  cases m with
  | nil => simp [mapSet]
  | cons p rest =>
    cases p with
    | mk k₁ v₁ =>
      simp only [mapSet]
      split <;> simp

theorem foldl_addDeposit_ne_nil (ds : List DepositRec) :
    ∀ m : DateMap, m ≠ [] → ds.foldl addDeposit m ≠ [] := by
  induction ds with
  | nil => intro m hm; simpa using hm
  | cons d rest ih =>
    intro m _
    rw [List.foldl_cons]
    exact ih _ (mapSet_ne_nil _ _ _)

theorem amountPerDate_ne_nil (ds : List DepositRec) (h : ds ≠ []) :
    amountPerDate ds ≠ [] := by
  cases ds with
  | nil => exact absurd rfl h
  | cons d rest =>
    rw [amountPerDate, List.foldl_cons]
    exact foldl_addDeposit_ne_nil rest _ (mapSet_ne_nil _ _ _)

theorem mapSet_map_fst (m : DateMap) (k : JSDate) (v : ℚ) :
    (mapSet m k v).map Prod.fst =
      if k ∈ m.map Prod.fst then m.map Prod.fst else m.map Prod.fst ++ [k] := by
  induction m with
  | nil => simp [mapSet]
  | cons p rest ih =>
    cases p with
    | mk k₁ v₁ =>
      by_cases hk : k₁ = k
      · subst hk
        simp [mapSet]
      · simp only [mapSet, if_neg hk, List.map_cons, List.mem_cons, ih]
        have hk' : ¬ k = k₁ := fun h => hk h.symm
        by_cases hmem : k ∈ rest.map Prod.fst
        · simp [hmem, hk']
        · simp [hmem, hk']

theorem mapSet_acc_sum (m : DateMap) (k : JSDate) (a : ℚ) :
    ((mapSet m k ((mapGet m k).getD 0 + a)).map Prod.snd).sum =
      (m.map Prod.snd).sum + a := by
  induction m with
  | nil => simp [mapSet, mapGet]
  | cons p rest ih =>
    cases p with
    | mk k₁ v₁ =>
      by_cases hk : k₁ = k
      · subst hk
        simp [mapSet, mapGet]
        ring
      · simp [mapSet, mapGet, if_neg hk, ih]
        ring

theorem amountPerDate_sum (deposits : List DepositRec) :
    ((amountPerDate deposits).map Prod.snd).sum =
      (deposits.map (fun d => d.amount)).sum := by
  suffices h : ∀ (ds : List DepositRec) (m : DateMap),
      ((ds.foldl addDeposit m).map Prod.snd).sum =
        (m.map Prod.snd).sum + (ds.map (fun d => d.amount)).sum by
    simpa using h deposits []
  intro ds
  induction ds with
  | nil => intro m; simp
  | cons d rest ih =>
    intro m
    rw [List.foldl_cons, ih, addDeposit, mapSet_acc_sum]
    simp [add_assoc]

theorem addDeposit_nodup (m : DateMap) (d : DepositRec)
    (h : (m.map Prod.fst).Nodup) : ((addDeposit m d).map Prod.fst).Nodup := by
  rw [addDeposit, mapSet_map_fst]
  split
  · exact h
  · rename_i hmem
    exact h.append (List.nodup_singleton _)
      (List.disjoint_left.mpr fun x hx hk => by
        simp only [List.mem_singleton] at hk
        exact hmem (hk ▸ hx))

theorem amountPerDate_nodup (ds : List DepositRec) :
    ((amountPerDate ds).map Prod.fst).Nodup := by
  suffices h : ∀ (ds : List DepositRec) (m : DateMap),
      (m.map Prod.fst).Nodup → ((ds.foldl addDeposit m).map Prod.fst).Nodup by
    exact h ds [] (by simp)
  intro ds
  induction ds with
  | nil => intro m hm; simpa using hm
  | cons d rest ih =>
    intro m hm
    rw [List.foldl_cons]
    exact ih _ (addDeposit_nodup m d hm)

theorem mapGet_cons_ne (k₁ : JSDate) (v₁ : ℚ) (rest : DateMap) (k : JSDate)
    (h : k₁ ≠ k) : mapGet ((k₁, v₁) :: rest) k = mapGet rest k := by
  simp [mapGet, if_neg h]

theorem keys_getD_sum (m : DateMap) (h : (m.map Prod.fst).Nodup) :
    ((m.map Prod.fst).map (fun k => (mapGet m k).getD 0)).sum =
      (m.map Prod.snd).sum := by
  induction m with
  | nil => simp
  | cons p rest ih =>
    cases p with
    | mk k v =>
      rw [List.map_cons, List.nodup_cons] at h
      obtain ⟨hknot, hrest⟩ := h
      have hcongr : (rest.map Prod.fst).map
            (fun k' => (mapGet ((k, v) :: rest) k').getD 0) =
          (rest.map Prod.fst).map (fun k' => (mapGet rest k').getD 0) := by
        apply List.map_congr_left
        intro k' hk'
        have hne : k ≠ k' := fun hkk => hknot (hkk ▸ hk')
        rw [mapGet_cons_ne _ _ _ _ hne]
      simp only [List.map_cons, List.sum_cons]
      rw [hcongr, ih hrest]
      have hhead : mapGet ((k, v) :: rest) k = some v := by simp [mapGet]
      rw [hhead]
      simp

theorem insertByDay_perm (x : JSDate) (l : List JSDate) :
    (insertByDay x l).Perm (x :: l) := by
  induction l with
  | nil => simp [insertByDay]
  | cons y ys ih =>
    rw [insertByDay]
    split
    · exact List.Perm.refl _
    · exact (ih.cons y).trans (List.Perm.swap x y ys)

theorem sortByDay_perm (l : List JSDate) : (sortByDay l).Perm l := by
  induction l with
  | nil => simp [sortByDay]
  | cons x xs ih =>
    rw [sortByDay]
    exact (insertByDay_perm x (sortByDay xs)).trans (ih.cons x)

theorem runningSum_getLast (m : DateMap) :
    ∀ (l : List JSDate) (acc : ℚ), l ≠ [] →
      ∃ p : CPoint, (runningSum m acc l).getLast? = some p ∧
        p.y = acc + (l.map (fun d => (mapGet m d).getD 0)).sum := by
  intro l
  induction l with
  | nil => intro acc h; exact absurd rfl h
  | cons d ds ih =>
    intro acc _
    cases ds with
    | nil =>
      refine ⟨⟨d, acc + (mapGet m d).getD 0⟩, by simp [runningSum], by simp⟩
    | cons d' rest =>
      obtain ⟨p, hp, hy⟩ := ih (acc + (mapGet m d).getD 0) (by simp)
      refine ⟨p, ?_, ?_⟩
      · rw [runningSum]
        rw [runningSum] at hp ⊢
        simpa [List.getLast?_cons_cons] using hp
      · rw [hy]
        simp [List.sum_cons]
        ring

/-- C5: for every non-empty deposit list, the last cumulative point exists and
its y value is the sum of all input amounts: the per-key amounts of the Map
partition the deposits, and the running sum over the (permuted) keys
telescopes to the total. -/
theorem aggregator_total_invariant (deposits : List DepositRec)
    (h : deposits ≠ []) :
    ∃ p : CPoint, (calculateCumulativeDeposits deposits).getLast? = some p ∧
      p.y = (deposits.map (fun d => d.amount)).sum := by
  rw [calculateCumulativeDeposits]
  have hm : amountPerDate deposits ≠ [] := amountPerDate_ne_nil deposits h
  have hkeys : (amountPerDate deposits).map Prod.fst ≠ [] := by
    simpa using hm
  have hsort : sortByDay ((amountPerDate deposits).map Prod.fst) ≠ [] := by
    intro h0
    have hlen := (sortByDay_perm ((amountPerDate deposits).map Prod.fst)).length_eq
    rw [h0] at hlen
    exact hkeys (List.eq_nil_of_length_eq_zero (by simpa using hlen.symm))
  obtain ⟨p, hp, hy⟩ := runningSum_getLast (amountPerDate deposits) _ 0 hsort
  refine ⟨p, hp, ?_⟩
  rw [hy, zero_add]
  have hperm : ((sortByDay ((amountPerDate deposits).map Prod.fst)).map
        (fun d => (mapGet (amountPerDate deposits) d).getD 0)).sum =
      (((amountPerDate deposits).map Prod.fst).map
        (fun d => (mapGet (amountPerDate deposits) d).getD 0)).sum :=
    ((sortByDay_perm _).map _).sum_eq
  rw [hperm, keys_getD_sum _ (amountPerDate_nodup deposits),
    amountPerDate_sum]

/-- Witness for the total invariant at a concrete input. -/
theorem aggregator_total_invariant_w :
    ([⟨"d1", 100, jan1a⟩, ⟨"d2", 50, jan1b⟩] : List DepositRec) ≠ [] ∧
    ∃ p : CPoint,
      (calculateCumulativeDeposits
          [⟨"d1", 100, jan1a⟩, ⟨"d2", 50, jan1b⟩]).getLast? = some p ∧
      p.y = (([⟨"d1", 100, jan1a⟩, ⟨"d2", 50, jan1b⟩] :
          List DepositRec).map (fun d => d.amount)).sum :=
  ⟨by simp, aggregator_total_invariant _ (by simp)⟩

/-! The Scale Mapper and Chart Assembler of app/utils/chart.server.ts.
The d3 continuous scale is linear interpolation between the range endpoints
at the normalized domain position; d3 guards a zero-width domain by mapping
every input to the midpoint of the range (normalize returns the constant
one half). The nice() step follows d3-array: repeatedly round the domain
endpoints outward to multiples of the tick increment, committing only when
the increment reaches a fixed point (at most ten iterations); the float
thresholds sqrt 50, sqrt 10, sqrt 2 of tickIncrement are idealized as exact
square comparisons, and floor(log10) is computed exactly. -/

/-- Iterations of division by 10 while at least 10, i.e. floor(log10) for
inputs at least 1; the fuel only bounds the recursion and is never reached
for positive inputs below 10^fuel. -/
def log10fuel : Nat → ℚ → Nat
  | 0, _ => 0
  | fuel + 1, q => if 10 ≤ q then log10fuel fuel (q / 10) + 1 else 0

/-- Iterations of multiplication by 10 while below 1, i.e. the negated
floor(log10) for inputs in (0, 1). -/
def clog10fuel : Nat → ℚ → Nat
  | 0, _ => 0
  | fuel + 1, q => if 1 ≤ q then 0 else clog10fuel fuel (q * 10) + 1

/-- floor(log10 q) for positive rationals, the exact value of the float
expression Math.floor(Math.log(q) / Math.LN10) in d3-array tickIncrement. -/
def qlog10 (q : ℚ) : ℤ :=
  if 1 ≤ q then (log10fuel q.num.natAbs q : ℤ)
  else -(clog10fuel q.den q : ℤ)

/-- d3-array tickIncrement(start, stop, 10) for start < stop: the chosen
tick step, encoded as in d3 (a positive step, or the negated reciprocal
denominator for sub-unit steps). -/
def tickIncrementQ (start stop : ℚ) : ℚ :=
  let step := (stop - start) / 10
  let power := qlog10 step
  let error := step / (10 : ℚ) ^ power
  let f : ℚ :=
    if 50 ≤ error ^ 2 then 10
    else if 10 ≤ error ^ 2 then 5
    else if 2 ≤ error ^ 2 then 2
    else 1
  if 0 ≤ power then f * (10 : ℚ) ^ power else -((10 : ℚ) ^ (-power).toNat) / f

/-- The nice loop of d3-scale linear.nice (delegating to d3-array nice):
returns the committed rounded domain, or none when the loop exits without
committing (degenerate zero-width domain, or fuel exhausted), in which case
the original domain is kept. A zero-width domain makes tickIncrement return
negative infinity, the rounding step produce NaN, and the next comparison
break out of the loop, so it is returned directly as uncommitted. -/
def niceLoopAux : Nat → Option ℚ → ℚ → ℚ → Option (ℚ × ℚ)
  | 0, _, _, _ => none
  | fuel + 1, prestep, start, stop =>
    if start = stop then none
    else
      let step := tickIncrementQ start stop
      if prestep = some step then some (start, stop)
      else if 0 < step then
        niceLoopAux fuel (some step)
          ((⌊start / step⌋ : ℚ) * step) ((⌈stop / step⌉ : ℚ) * step)
      else
        niceLoopAux fuel (some step)
          ((⌈start * step⌉ : ℚ) / step) ((⌊stop * step⌋ : ℚ) / step)

/-- scale.nice() with the default count of 10: ascending domains are rounded
outward, descending domains are rounded on the swapped endpoints and
restored, and an uncommitted loop leaves the domain unchanged. -/
def d3NiceDomain (a b : ℚ) : ℚ × ℚ :=
  if b < a then
    match niceLoopAux 10 none b a with
    | some p => (p.2, p.1)
    | none => (a, b)
  else
    match niceLoopAux 10 none a b with
    | some p => p
    | none => (a, b)

/-- A d3 continuous scale with two-point domain [d0, d1] and range [r0, r1]:
linear interpolation of the range at the normalized domain position, with
the d3 zero-width-domain guard mapping everything to the range midpoint.
For a descending domain d3 normalizes the swapped pair against the swapped
range, which is the same affine map, so one formula covers both. -/
def d3LinearScale (d0 d1 r0 r1 v : ℚ) : ℚ :=
  if d1 - d0 = 0 then r0 + (1 / 2) * (r1 - r0)
  else r0 + ((v - d0) / (d1 - d0)) * (r1 - r0)

/-- One command of an SVG path description string. -/
inductive PathCmd where
  | move (x y : ℚ)
  | lineTo (x y : ℚ)
deriving DecidableEq, Repr

/-- The curveStepAfter segments after the initial move: for each following
point, a horizontal line at the previous y, then a vertical line to the new
y at the new x. -/
def stepAfterSegs : (ℚ × ℚ) → List (ℚ × ℚ) → List PathCmd
  | _, [] => []
  | p, q :: rest => .lineTo q.1 p.2 :: .lineTo q.1 q.2 :: stepAfterSegs q rest

/-- d3-shape line with curveStepAfter over already-scaled points; null (none)
exactly on an empty point sequence. -/
def lineStepAfter : List (ℚ × ℚ) → Option (List PathCmd)
  | [] => none
  | p :: rest => some (.move p.1 p.2 :: stepAfterSegs p rest)

/-- A display label; Intl formatting is idealized as an injective encoding
of the formatted value (an amount, a date, or the combined tooltip text). -/
inductive Label where
  | amount (value : ℚ)
  | date (d : JSDate)
  | dateAmount (d : JSDate) (value : ℚ)
deriving DecidableEq, Repr

/-- The Point interface of chart.server.ts: a pixel position with a label. -/
structure Point where
  x : ℚ
  y : ℚ
  label : Label
deriving DecidableEq, Repr

/-- The Dimensions interface of chart.server.ts. -/
structure Margin where
  top : ℚ
  right : ℚ
  bottom : ℚ
  left : ℚ
deriving DecidableEq, Repr

structure Dimensions where
  width : ℚ
  height : ℚ
  margin : Margin
deriving DecidableEq, Repr

/-- The InvoiceChart interface of chart.server.ts. -/
structure InvoiceChart where
  dPath : List PathCmd
  yAxis : Point × Point
  xAxis : Point × Point
  points : List Point
deriving DecidableEq, Repr

/-- generateInvoiceChart from app/utils/chart.server.ts. The two none
branches after the guard model runtime crashes (reading firstEntry of an
empty array, and the tiny-invariant throw on a null path); both are
unreachable for the inputs the guard lets through. -/
def generateInvoiceChart (deposits : List DepositRec) (dims : Dimensions) :
    Option InvoiceChart :=
  if deposits.length < 2 then none
  else
    match calculateCumulativeDeposits deposits with
    | [] => none
    | firstEntry :: rest =>
      let lastEntry := rest.getLastD firstEntry
      let nd := d3NiceDomain firstEntry.y lastEntry.y
      let yScale : ℚ → ℚ := fun v => d3LinearScale nd.1 nd.2 dims.height 0 v
      let xScale : JSDate → ℚ := fun d =>
        d3LinearScale (firstEntry.x.time : ℚ) (lastEntry.x.time : ℚ)
          0 dims.width (d.time : ℚ)
      let data := firstEntry :: rest
      match lineStepAfter (data.map fun p => (xScale p.x, yScale p.y)) with
      | none => none
      | some dPath =>
        some
          { dPath := dPath
            yAxis :=
              (⟨xScale firstEntry.x, yScale firstEntry.y - dims.margin.top / 2,
                  .amount firstEntry.y⟩,
               ⟨xScale lastEntry.x, yScale lastEntry.y - dims.margin.top / 2,
                  .amount lastEntry.y⟩)
            xAxis :=
              (⟨xScale firstEntry.x, dims.height + dims.margin.bottom * 2 / 3,
                  .date firstEntry.x⟩,
               ⟨xScale lastEntry.x, dims.height + dims.margin.bottom * 2 / 3,
                  .date lastEntry.x⟩)
            points := data.map fun p =>
              ⟨xScale p.x, yScale p.y, .dateAmount p.x p.y⟩ }

/-- The canvas configuration of the invoice routes:
width 400, height 200, margin top 10 right 10 bottom 30 left 10. -/
def dims400 : Dimensions := ⟨400, 200, ⟨10, 10, 30, 10⟩⟩

/-! The chart absence policy (C2) and scale boundedness (C7). -/

theorem sortKeys_ne_nil (ds : List DepositRec) (h : ds ≠ []) :
    sortByDay ((amountPerDate ds).map Prod.fst) ≠ [] := by
  intro h0
  have hkeys : (amountPerDate ds).map Prod.fst ≠ [] := by
    simpa using amountPerDate_ne_nil ds h
  have hlen := (sortByDay_perm ((amountPerDate ds).map Prod.fst)).length_eq
  rw [h0] at hlen
  exact hkeys (List.eq_nil_of_length_eq_zero (by simpa using hlen.symm))

theorem calculateCumulativeDeposits_ne_nil (ds : List DepositRec)
    (h : ds ≠ []) : calculateCumulativeDeposits ds ≠ [] := by
  rw [calculateCumulativeDeposits]
  cases hs : sortByDay ((amountPerDate ds).map Prod.fst) with
  | nil => exact absurd hs (sortKeys_ne_nil ds h)
  | cons d l => simp [runningSum]

/-- C2 amended: the guard of generateInvoiceChart counts deposit records,
not distinct calendar dates: the result is the absence value exactly when
fewer than two records are supplied, and every list of at least two records
(even all on one date) produces a populated chart. -/
theorem chart_absence_on_record_count (deposits : List DepositRec)
    (dims : Dimensions) :
    generateInvoiceChart deposits dims = none ↔ deposits.length < 2 := by
  constructor
  · intro hnone
    by_contra h2
    have hne : deposits ≠ [] := by
      intro h
      subst h
      simp at h2
    rw [generateInvoiceChart, if_neg h2] at hnone
    rcases hdata : calculateCumulativeDeposits deposits with _ | ⟨f, rest⟩
    · exact calculateCumulativeDeposits_ne_nil deposits hne hdata
    · rw [hdata] at hnone
      simp [lineStepAfter] at hnone
  · intro h2
    rw [generateInvoiceChart, if_pos h2]

/-- C2 counterexample: two deposit records that share the calendar date
2024-03-01 (one distinct date) still produce a populated chart, because the
guard tests deposits.length, not the number of distinct dates. -/
theorem chart_present_for_single_distinct_date :
    mar1a.time = mar1b.time ∧
    (generateInvoiceChart [⟨"d1", 100, mar1a⟩, ⟨"d2", 50, mar1b⟩]
        dims400).isSome = true := by
  refine ⟨by with_unfolding_all decide, by with_unfolding_all decide⟩

/-- C7: the claim fails on the code. With three positive deposits dated
Jan 10, Feb 5 and Jan 20 of 2024 the day-of-month sort orders the series
Feb 5, Jan 10, Jan 20, so the x domain endpoints are Feb 5 and Jan 20 and
the middle date Jan 10 lies outside them: xScale maps it to pixel 650,
outside the configured range [0, width] = [0, 400]. -/
theorem xscale_out_of_range :
    (generateInvoiceChart
        [⟨"d1", 100, jan10⟩, ⟨"d2", 100, feb5⟩, ⟨"d3", 100, jan20⟩]
        dims400).map (fun c => c.points.map (fun p => p.x)) =
      some [0, 650, 400] ∧
    ¬ ((650 : ℚ) ≤ dims400.width) := by
  refine ⟨by with_unfolding_all decide, by with_unfolding_all decide⟩

/-! The hand-rolled scale variant of the intermediate invoice route (README):
yScale and xScale are written directly as range/domain linear interpolation
with no zero-width-domain guard. JS float special values matter here, so the
arithmetic runs over JSNum: rationals extended with the IEEE special values
produced by division by zero and by multiplying an infinity by zero. -/

/-- A JS number that may be an infinity or NaN. -/
inductive JSNum where
  | num (q : ℚ)
  | posInf
  | negInf
  | nan
deriving DecidableEq, Repr

/-- JS division of finite numbers: division by zero gives an infinity of the
sign of the numerator, and 0/0 gives NaN. -/
def jsDiv (a b : ℚ) : JSNum :=
  if b = 0 then
    if a = 0 then .nan else if 0 < a then .posInf else .negInf
  else .num (a / b)

/-- Multiplication of a JS number by a finite number: an infinity times zero
is NaN, and NaN propagates. -/
def JSNum.mulQ : JSNum → ℚ → JSNum
  | .num a, b => .num (a * b)
  | .posInf, b => if b = 0 then .nan else if 0 < b then .posInf else .negInf
  | .negInf, b => if b = 0 then .nan else if 0 < b then .negInf else .posInf
  | .nan, _ => .nan

/-- Addition of a finite number to a JS number; NaN propagates. -/
def JSNum.addQ : JSNum → ℚ → JSNum
  | .num a, b => .num (a + b)
  | .posInf, _ => .posInf
  | .negInf, _ => .negInf
  | .nan, _ => .nan

/-- Subtraction of a JS number from a finite number; NaN propagates. -/
def JSNum.subFrom (a : ℚ) : JSNum → JSNum
  | .num b => .num (a - b)
  | .posInf => .negInf
  | .negInf => .posInf
  | .nan => .nan

/-- The hand-rolled yScale of the intermediate route:
height - ((range / domain) * (y - firstEntry.y) + margin.bottom) with
domain = lastEntry.y - firstEntry.y and
range = height - margin.bottom - margin.top. -/
def handRolledYScale (firstY lastY height mbottom mtop y : ℚ) : JSNum :=
  JSNum.subFrom height
    (((jsDiv (height - mbottom - mtop) (lastY - firstY)).mulQ
        (y - firstY)).addQ mbottom)

/-- The hand-rolled xScale of the intermediate route:
(range / domain) * (x.valueOf() - firstEntry.x.valueOf()) + margin.left with
domain = lastEntry.x.valueOf() - firstEntry.x.valueOf() and
range = width - margin.right - margin.left. -/
def handRolledXScale (firstT lastT width mright mleft x : ℚ) : JSNum :=
  ((jsDiv (width - mright - mleft) (lastT - firstT)).mulQ
      (x - firstT)).addQ mleft

/-- C8 counterexample: a single deposit gives a one-point series, the domain
has zero width, and the hand-rolled scales return NaN for that single point
(range/0 is an infinity, multiplied by the zero offset gives NaN), contrary
to the claim that both variants return a non-NaN pixel value. -/
theorem handrolled_scale_nan_on_single_date :
    calculateCumulativeDeposits [⟨"d1", 100, mar1a⟩] = [⟨mar1a, 100⟩] ∧
    handRolledYScale 100 100 200 30 10 100 = JSNum.nan ∧
    handRolledXScale 60 60 400 10 10 60 = JSNum.nan := by
  refine ⟨by with_unfolding_all decide, by with_unfolding_all decide,
    by with_unfolding_all decide⟩

/-- C8 amended: on a zero-width domain the d3-based variant is deterministic
and NaN-free: nice leaves the degenerate domain unchanged and the scale maps
every input to the midpoint of the pixel range (a rational, never NaN); the
hand-rolled variant instead divides by the zero-width domain and returns NaN
at the single point, for both of its scales. -/
theorem degenerate_domain_scales (a v r0 r1 firstY hgt mb mt firstT w mr ml : ℚ) :
    d3NiceDomain a a = (a, a) ∧
    d3LinearScale a a r0 r1 v = (r0 + r1) / 2 ∧
    handRolledYScale firstY firstY hgt mb mt firstY = JSNum.nan ∧
    handRolledXScale firstT firstT w mr ml firstT = JSNum.nan := by
  refine ⟨?_, ?_, ?_, ?_⟩
  · rw [d3NiceDomain, if_neg (lt_irrefl a), niceLoopAux, if_pos rfl]
  · rw [d3LinearScale, if_pos (by ring)]
    ring
  · rw [handRolledYScale, sub_self, jsDiv]
    rcases lt_trichotomy (hgt - mb - mt) 0 with hlt | heq | hgt0
    · rw [if_pos rfl, if_neg (by linarith), if_neg (by linarith)]
      simp [JSNum.mulQ, JSNum.addQ, JSNum.subFrom]
    · rw [if_pos rfl, if_pos heq]
      simp [JSNum.mulQ, JSNum.addQ, JSNum.subFrom]
    · rw [if_pos rfl, if_neg (by linarith), if_pos hgt0]
      simp [JSNum.mulQ, JSNum.addQ, JSNum.subFrom]
  · rw [handRolledXScale, sub_self, jsDiv]
    rcases lt_trichotomy (w - mr - ml) 0 with hlt | heq | hgt0
    · rw [if_pos rfl, if_neg (by linarith), if_neg (by linarith)]
      simp [JSNum.mulQ, JSNum.addQ]
    · rw [if_pos rfl, if_pos heq]
      simp [JSNum.mulQ, JSNum.addQ]
    · rw [if_pos rfl, if_neg (by linarith), if_pos hgt0]
      simp [JSNum.mulQ, JSNum.addQ]

/-! The Path Animator: useDPathAnimation from the enhanced invoice route in
the repository README. The effect builds a path interpolator from the
previous committed path to the new one, advances a progress ratio t by
rate = 1000 / (60 * durationMs) per frame capped at 1, emits a
transitioning frame per step, and on reaching t = 1 emits an idle frame
carrying the new path verbatim and commits the new path to the
previousDPath ref. The interpolator (d3-interpolate-path) is an arbitrary
function parameter: nothing below depends on its values. -/

inductive Phase where
  | transitioning
  | idle
deriving DecidableEq, Repr

/-- One setIntermediateDPath call: an intermediate path string and the
animation phase. -/
structure AnimationFrame where
  pathDescription : String
  phase : Phase
deriving DecidableEq, Repr

/-- The step measure decreases: each step either moves t up by the full
rate, shrinking the remaining tick count by one, or caps t at 1, dropping
the measure to zero while it was still positive. -/
theorem animMeasure_lt (rate t : ℚ) (hr : 0 < rate) (ht : t < 1) :
    (⌈(1 - min (t + rate) 1) / rate⌉).toNat < (⌈(1 - t) / rate⌉).toNat := by
  have hpos : 0 < (1 - t) / rate := div_pos (by linarith) hr
  have hc : 0 < ⌈(1 - t) / rate⌉ := Int.ceil_pos.mpr hpos
  rcases le_total (t + rate) 1 with hle | hge
  · rw [min_eq_left hle]
    have hstep : (1 - (t + rate)) / rate = (1 - t) / rate - 1 := by
      field_simp
      ring
    rw [hstep]
    have hceil : ⌈(1 - t) / rate - 1⌉ = ⌈(1 - t) / rate⌉ - 1 := by
      exact_mod_cast Int.ceil_sub_int ((1 - t) / rate) 1
    rw [hceil]
    omega
  · rw [min_eq_right hge]
    have : (1 - (1 : ℚ)) / rate = 0 := by simp
    rw [this]
    simp only [Int.ceil_zero]
    omega

/-- The recursive step function of useDPathAnimation for one run: while
t < 1, advance t to min(t + rate, 1), emit a transitioning frame with the
interpolated path, and reschedule; once t reaches 1, emit the idle frame
with the new path exactly and commit the new path as the ref value
(returned as the second component). -/
def animLoop (interp : ℚ → String) (dPath : String) (rate : ℚ)
    (hr : 0 < rate) (t : ℚ) : List AnimationFrame × String :=
  if h : t < 1 then
    (⟨interp (min (t + rate) 1), .transitioning⟩ ::
        (animLoop interp dPath rate hr (min (t + rate) 1)).1,
      (animLoop interp dPath rate hr (min (t + rate) 1)).2)
  else ([⟨dPath, .idle⟩], dPath)
termination_by (⌈(1 - t) / rate⌉).toNat
decreasing_by
  all_goals exact animMeasure_lt rate t hr h

/-- The useDPathAnimation effect body: a no-op when the incoming path equals
the stored previous path, otherwise one full run of the step loop starting
at t = 0 with rate = 1000 / (60 * durationMs). Returns the emitted frame
sequence and the final previousDPath ref value. -/
def useDPathAnimationEffect (interp : String → String → ℚ → String)
    (previousDPath dPath : String) (durationMs : ℚ) (hd : 0 < durationMs) :
    List AnimationFrame × String :=
  if dPath = previousDPath then ([], previousDPath)
  else
    animLoop (interp previousDPath dPath) dPath (1000 / (60 * durationMs))
      (div_pos (by norm_num) (by linarith)) 0

theorem getLast?_cons_of_some {α : Type} (a : α) (l : List α) (x : α)
    (h : l.getLast? = some x) : (a :: l).getLast? = some x := by
  cases l with
  | nil => simp at h
  | cons b bs => rw [List.getLast?_cons_cons]; exact h

theorem animLoop_last (interp : ℚ → String) (dPath : String) (rate : ℚ)
    (hr : 0 < rate) :
    ∀ (n : Nat) (t : ℚ), (⌈(1 - t) / rate⌉).toNat ≤ n →
      (animLoop interp dPath rate hr t).1.getLast? =
          some ⟨dPath, Phase.idle⟩ ∧
        (animLoop interp dPath rate hr t).2 = dPath := by
  intro n
  induction n with
  | zero =>
    intro t hle
    have ht : ¬ t < 1 := by
      intro hlt
      have hpos : 0 < (1 - t) / rate := div_pos (by linarith) hr
      have hc : 0 < ⌈(1 - t) / rate⌉ := Int.ceil_pos.mpr hpos
      omega
    unfold animLoop
    rw [dif_neg ht]
    simp
  | succ n ih =>
    intro t hle
    by_cases ht : t < 1
    · have hlt := animMeasure_lt rate t hr ht
      have hrec := ih (min (t + rate) 1) (by omega)
      unfold animLoop
      rw [dif_pos ht]
      exact ⟨getLast?_cons_of_some _ _ _ hrec.1, hrec.2⟩
    · unfold animLoop
      rw [dif_neg ht]
      simp

/-- C9: for any interpolator, any distinct previous and next path strings
and any positive duration, the step loop terminates (it is a total
function of a well-founded measure), its final frame is the idle frame
carrying nextPath verbatim, and the stored previous-path ref ends up equal
to nextPath. -/
theorem animation_convergence (interp : String → String → ℚ → String)
    (previousPath nextPath : String) (durationMs : ℚ)
    (hd : 0 < durationMs) (hne : previousPath ≠ nextPath) :
    (useDPathAnimationEffect interp previousPath nextPath durationMs
        hd).1.getLast? = some ⟨nextPath, Phase.idle⟩ ∧
      (useDPathAnimationEffect interp previousPath nextPath durationMs
        hd).2 = nextPath := by
  rw [useDPathAnimationEffect, if_neg (fun h => hne h.symm)]
  exact animLoop_last _ _ _ _ ((⌈(1 - (0 : ℚ)) / (1000 / (60 * durationMs))⌉).toNat)
    0 le_rfl

/-- Witness for the animation convergence theorem at a concrete input. -/
theorem animation_convergence_w :
    (0 : ℚ) < 50 / 3 ∧ ("M0,0" : String) ≠ "M0,9" ∧
    ((useDPathAnimationEffect (fun _ _ _ => "mid") "M0,0" "M0,9" (50 / 3)
        (by norm_num)).1.getLast? = some ⟨"M0,9", Phase.idle⟩ ∧
      (useDPathAnimationEffect (fun _ _ _ => "mid") "M0,0" "M0,9" (50 / 3)
        (by norm_num)).2 = "M0,9") :=
  ⟨by norm_num, by decide,
    animation_convergence (fun _ _ _ => "mid") "M0,0" "M0,9" (50 / 3)
      (by norm_num) (by decide)⟩

/-! Supersession (C10). The useDPathAnimation effect has no cleanup: when a
new dPath arrives while a run is in flight, the old step closure stays
registered with requestAnimationFrame and keeps running to its own idle
frame. The model below adds the scheduler: a world holds the FIFO queue of
pending frame callbacks (one per live run), the shared previousDPath ref,
and the ordered log of setIntermediateDPath calls. Each browser frame
drains the current queue in registration order; callbacks scheduled during
a frame run in the next one. -/

/-- One live run of the step loop: the interpolation source captured from
previousDPath.current when the effect ran, the captured target dPath, and
the current progress ratio. -/
structure AnimRun where
  sourcePath : String
  targetPath : String
  t : ℚ
deriving DecidableEq, Repr

/-- The client state: pending requestAnimationFrame callbacks in FIFO
order, the previousDPath ref cell, and the emitted frames. -/
structure AnimWorld where
  queue : List AnimRun
  previousDPath : String
  frames : List AnimationFrame
deriving DecidableEq, Repr

/-- One invocation of the step callback of a run: below t = 1 it advances
t, emits a transitioning frame through the interpolator of that run, and
re-registers itself; at t = 1 it emits the idle frame with its captured
target and writes that target into the shared previousDPath ref. -/
def animRunStep (interp : String → String → ℚ → String) (rate : ℚ)
    (w : AnimWorld) (r : AnimRun) : AnimWorld :=
  if r.t < 1 then
    { w with
        frames := w.frames ++
          [⟨interp r.sourcePath r.targetPath (min (r.t + rate) 1),
            .transitioning⟩]
        queue := w.queue ++ [{ r with t := min (r.t + rate) 1 }] }
  else
    { w with
        frames := w.frames ++ [⟨r.targetPath, .idle⟩]
        previousDPath := r.targetPath }

/-- One browser animation frame: drain the currently pending callbacks in
registration order; callbacks they register run in the next frame. -/
def animTick (interp : String → String → ℚ → String) (rate : ℚ)
    (w : AnimWorld) : AnimWorld :=
  w.queue.foldl (animRunStep interp rate) { w with queue := [] }

/-- A render observing a changed dPath: the effect compares it against the
previousDPath ref (which is only updated at idle), builds the interpolator
from that ref value, and synchronously invokes the first step. -/
def startAnimation (interp : String → String → ℚ → String) (rate : ℚ)
    (w : AnimWorld) (dPath : String) : AnimWorld :=
  if dPath = w.previousDPath then w
  else animRunStep interp rate w ⟨w.previousDPath, dPath, 0⟩

/-- The C10 scenario: from committed path P0, a run towards P1 starts; one
half-step later (t = 1/2 < 1, rate 1/2) a new target P2 supersedes it; the
world then runs to quiescence. -/
def supersessionWorld : AnimWorld :=
  let interp : String → String → ℚ → String := fun a b _ => a ++ b
  animTick interp (1 / 2) (animTick interp (1 / 2)
    (startAnimation interp (1 / 2)
      (startAnimation interp (1 / 2) ⟨[], "P0", []⟩ "P1") "P2"))

/-- C10: the claim fails on the code. The effect never cancels the
superseded run, so after the P1 run is pre-empted by P2 the combined frame
log still contains two idle frames, and the first of them carries the stale
target P1; the queue is empty (both runs finished) and only the ref ends at
P2. The claim demands exactly one idle frame, never the stale one. -/
theorem animation_supersession_stale_idle :
    supersessionWorld.queue = [] ∧
    supersessionWorld.previousDPath = "P2" ∧
    (supersessionWorld.frames.filter
        (fun f => f.phase == Phase.idle)).map
        (fun f => f.pathDescription) = ["P1", "P2"] ∧
    ("P1" : String) ≠ "P2" := by
  refine ⟨by with_unfolding_all decide, by with_unfolding_all decide,
    by with_unfolding_all decide, by decide⟩
